import Mathlib

/-
Verification development for the gocollect storage layer (store.go, web.go).
The bolt database is modelled as explicit state: each bucket is a presence
flag plus an association list ordered by the byte-lexicographic key order
bolt maintains. Byte strings are lists of natural numbers. JSON marshalling
of a user record and its unmarshalling are modelled as exact inverses, so
primary-bucket values hold the record itself.
-/

namespace GoCollect

/-- Byte strings are modelled as lists of natural numbers; every byte the
program writes is below 256. -/
abbrev Bytes := List Nat

/-- Model of the byte-lexicographic order bytes.Compare induces on bolt keys:
compare byte by byte, and a key that is a proper leading part of another
sorts first. -/
def lexLt : Bytes → Bytes → Bool
  | [], [] => false
  | [], _ :: _ => true
  | _ :: _, [] => false
  | a :: as, b :: bs => if a < b then true else if b < a then false else lexLt as bs

/-- Model of bytes.HasPrefix as used by the fuzzy-search loop: hasPfx p k is
true when p is a leading byte segment of k. -/
def hasPfx : Bytes → Bytes → Bool
  | [], _ => true
  | _ :: _, [] => false
  | a :: as, b :: bs => a == b && hasPfx as bs

/-- Lookup in a bolt bucket modelled as an association list. -/
def mget {α : Type} : List (Bytes × α) → Bytes → Option α
  | [], _ => none
  | (k, v) :: t, k2 => if k2 = k then some v else mget t k2

/-- Put into a bolt bucket modelled as a key-ordered association list:
insert before the first larger key, or replace an equal key in place. -/
def mput {α : Type} : List (Bytes × α) → Bytes → α → List (Bytes × α)
  | [], k, v => [(k, v)]
  | (k1, v1) :: t, k, v =>
    if lexLt k k1 then (k, v) :: (k1, v1) :: t
    else if k = k1 then (k, v) :: t
    else (k1, v1) :: mput t k v

/-- Model of idToBytes (store.go): the eight-byte big-endian encoding that
binary.BigEndian.PutUint64 writes. -/
def idToBytes (v : Nat) : Bytes :=
  [v / 2 ^ 56 % 256, v / 2 ^ 48 % 256, v / 2 ^ 40 % 256, v / 2 ^ 32 % 256,
   v / 2 ^ 24 % 256, v / 2 ^ 16 % 256, v / 2 ^ 8 % 256, v % 256]

/-- Model of idFromBytes (store.go): binary.BigEndian.Uint64 reads exactly
the first eight bytes, most significant first. -/
def idFromBytes (b : Bytes) : Nat :=
  (b.take 8).foldl (fun a x => a * 256 + x) 0

/-- Bytes allowed in the local part of the email expression in web.go:
letters, digits, and the characters dot, underscore, percent, plus, hyphen
(the (?i) flag makes letter classes case-insensitive). -/
def isLocalByte (c : Nat) : Bool :=
  (48 ≤ c && c ≤ 57) || (65 ≤ c && c ≤ 90) || (97 ≤ c && c ≤ 122) ||
  c == 46 || c == 95 || c == 37 || c == 43 || c == 45

/-- Bytes allowed in a domain label of the email expression: letters, digits
and the hyphen. -/
def isLabelByte (c : Nat) : Bool :=
  (48 ≤ c && c ≤ 57) || (65 ≤ c && c ≤ 90) || (97 ≤ c && c ≤ 122) || c == 45

/-- Bytes allowed in the closing top-level-domain part: letters only. -/
def isTldByte (c : Nat) : Bool :=
  (65 ≤ c && c ≤ 90) || (97 ≤ c && c ≤ 122)

/-- True when some leading part of l matches the closing letter block of the
email expression, which asks for two to six letters: two leading letters
suffice, since any longer match contains a two-letter leading match. -/
def tldHere (l : Bytes) : Bool :=
  match l with
  | a :: b :: _ => isTldByte a && isTldByte b
  | _ => false

/-- True when some leading part of l matches the domain of the email
expression: one or more groups of a non-empty label followed by a dot, then
the closing letter block. The dot is not a label byte, so each label is
forced to be the maximal label run before the next dot. The fuel argument
bounds the recursion and is instantiated with the length of l. -/
def domHere : Nat → Bytes → Bool
  | 0, _ => false
  | fuel + 1, l =>
    let w := l.takeWhile isLabelByte
    if w.isEmpty then false
    else
      match l.drop w.length with
      | 46 :: rest => tldHere rest || domHere fuel rest
      | _ => false

/-- Scan for an unanchored match of the email expression: Go regexp
MatchString is true exactly when some substring matches, which happens
exactly when some at sign (byte 64) is directly preceded by a local byte and
directly followed by a domain match. The first argument carries the byte
just before the current position. -/
def emailScan : Option Nat → Bytes → Bool
  | _, [] => false
  | before, c :: rest =>
    (c == 64 &&
      (match before with
       | some p => isLocalByte p
       | none => false) &&
      domHere rest.length rest) ||
    emailScan (some c) rest

/-- Model of IsEmailValid (web.go): MatchString of the expression
(?i)[A-Z0-9._%+-]+@(?:[A-Z0-9-]+\.)+[A-Z]\x7b2,6\x7d against the email. -/
def IsEmailValid (email : Bytes) : Bool := emailScan none email

/-- Model of the User struct (web.go) with its three fields. -/
structure User where
  ID : Nat
  Email : Bytes
  PhoneNo : Bytes
deriving DecidableEq, Repr

/-- Model of User.IsValid (web.go): only the email is checked. -/
def User.IsValid (u : User) : Bool := IsEmailValid u.Email

/-- Error values of the modelled operations. Each constructor stands for one
fmt.Errorf site or bolt error of the source; carrying the formatted
arguments keeps distinct messages distinct. notOpen is the Close error, and
nilBucket marks the nil dereference AddUser would hit when the users bucket
is absent (the source would panic there; no modelled theorem relies on that
state). -/
inductive StoreErr where
  | notValid
  | userNotFound (id : Nat)
  | emailNotFound (email : Bytes)
  | phoneNotFound (phoneNo : Bytes)
  | fuzzyNotFound (email : Bytes)
  | keyRequired
  | keyTooLarge
  | bucketExists
  | nilBucket
  | notOpen
  | openFailed
deriving DecidableEq, Repr

/-- Contents of the bolt database file. Each bucket of store.go appears as a
presence flag (tx.Bucket returns nil when the bucket is absent) plus its
entries; the users bucket also carries its persisted sequence counter. The
user-events bucket holds the names of its empty sub-buckets; no modelled
operation observes their order, so they are kept as a plain list. -/
structure DB where
  hasUsers : Bool
  usersSeq : Nat
  users : List (Bytes × User)
  hasUserEvents : Bool
  userEvents : List Bytes
  hasEmailIdx : Bool
  emailToUserID : List (Bytes × Bytes)
  hasPhoneIdx : Bool
  phoneNoToUserID : List (Bytes × Bytes)
deriving DecidableEq, Repr

/-- Check bolt applies to the key of a Put: an empty key is rejected with
ErrKeyRequired, a key longer than 32768 bytes with ErrKeyTooLarge. -/
def putErr (k : Bytes) : Option StoreErr :=
  if k.length = 0 then some .keyRequired
  else if 32768 < k.length then some .keyTooLarge
  else none

/-- Model of Store.Init (store.go): create the four buckets if absent,
keeping any existing contents. Idempotent by construction. -/
def DB.Init (db : DB) : DB :=
  { db with hasUsers := true, hasUserEvents := true,
            hasEmailIdx := true, hasPhoneIdx := true }

/-- A store file on which Init never ran: no bucket exists. -/
def uninitDB : DB :=
  { hasUsers := false, usersSeq := 0, users := [],
    hasUserEvents := false, userEvents := [],
    hasEmailIdx := false, emailToUserID := [],
    hasPhoneIdx := false, phoneNoToUserID := [] }

/-- A freshly initialised empty store: Init applied to a new file. -/
def initDB : DB := uninitDB.Init

/-- Model of Store.GetUser (store.go). The single fmt.Errorf site serves
both a missing users bucket and a missing key, so both miss cases fail with
the same error value. Reads are pure: the state is not changed. -/
def DB.GetUser (db : DB) (id : Nat) : Except StoreErr User :=
  if db.hasUsers then
    match mget db.users (idToBytes id) with
    | some u => .ok u
    | none => .error (.userNotFound id)
  else .error (.userNotFound id)

/-- Model of Store.GetUserIDUsingEmail (store.go): exact lookup in the email
index; every miss path shares one fmt.Errorf site. -/
def DB.GetUserIDUsingEmail (db : DB) (email : Bytes) : Except StoreErr Nat :=
  if db.hasUsers then
    if db.hasEmailIdx then
      match mget db.emailToUserID email with
      | some v => .ok (idFromBytes v)
      | none => .error (.emailNotFound email)
    else .error (.emailNotFound email)
  else .error (.emailNotFound email)

/-- Model of Store.GetUserIDUsingPhoneNo (store.go): exact lookup in the
phone index; every miss path shares one fmt.Errorf site. -/
def DB.GetUserIDUsingPhoneNo (db : DB) (phoneNo : Bytes) : Except StoreErr Nat :=
  if db.hasUsers then
    if db.hasPhoneIdx then
      match mget db.phoneNoToUserID phoneNo with
      | some v => .ok (idFromBytes v)
      | none => .error (.phoneNotFound phoneNo)
    else .error (.phoneNotFound phoneNo)
  else .error (.phoneNotFound phoneNo)

/-- Model of Store.GetUserIDsMatchingFuzzyEmail (store.go). Cursor.Seek
positions at the first key not below the argument, modelled on a key-ordered
bucket by dropping every smaller key; the loop then collects values while
the key keeps the argument as a leading byte segment. When the email bucket
exists the callback returns nil even when nothing matched, so the call
yields a success carrying the collected, possibly empty, list. -/
def DB.GetUserIDsMatchingFuzzyEmail (db : DB) (email : Bytes) :
    Except StoreErr (List Nat) :=
  if db.hasUsers then
    if db.hasEmailIdx then
      .ok (((db.emailToUserID.dropWhile fun kv => lexLt kv.1 email).takeWhile
              fun kv => hasPfx email kv.1).map fun kv => idFromBytes kv.2)
    else .error (.fuzzyNotFound email)
  else .error (.fuzzyNotFound email)

/-- Model of Store.AddUser (store.go), keeping the exact threading of the
err variable inside the update transaction. NextSequence increments the
persisted counter of the users bucket modulo 2 to the 64. The result of
CreateBucket on the user-events bucket is assigned to err but not checked,
so a later successful index Put overwrites it; the swallowed error can make
the transaction commit without the event sub-bucket. When the callback
returns a non-nil error the transaction rolls back and the database is
unchanged; when it returns nil every write of the transaction commits.
The nil dereference the source hits when the users bucket is absent is
represented by the nilBucket error and never relied on by a theorem. -/
def DB.AddUser (db : DB) (u : User) : DB × Except StoreErr Nat :=
  if !u.IsValid then (db, .error .notValid)
  else if !db.hasUsers then (db, .error .nilBucket)
  else
    let id := (db.usersSeq + 1) % 18446744073709551616
    let u2 : User := { u with ID := id }
    match putErr (idToBytes id) with
    | some e => (db, .error e)
    | none =>
      let users2 := mput db.users (idToBytes id) u2
      let evErr : Option StoreErr :=
        if db.hasUserEvents then
          if idToBytes id ∈ db.userEvents then some .bucketExists else none
        else none
      let userEvents2 : List Bytes :=
        if db.hasUserEvents then
          if idToBytes id ∈ db.userEvents then db.userEvents
          else db.userEvents ++ [idToBytes id]
        else db.userEvents
      if db.hasEmailIdx then
        match putErr u.Email with
        | some e => (db, .error e)
        | none =>
          let emailIdx2 := mput db.emailToUserID u.Email (idToBytes id)
          if u.PhoneNo = [] then
            ({ db with usersSeq := id, users := users2,
                       userEvents := userEvents2,
                       emailToUserID := emailIdx2 }, .ok id)
          else if db.hasPhoneIdx then
            match putErr u.PhoneNo with
            | some e => (db, .error e)
            | none =>
              ({ db with usersSeq := id, users := users2,
                         userEvents := userEvents2,
                         emailToUserID := emailIdx2,
                         phoneNoToUserID :=
                           mput db.phoneNoToUserID u.PhoneNo (idToBytes id) },
               .ok id)
          else
            ({ db with usersSeq := id, users := users2,
                       userEvents := userEvents2,
                       emailToUserID := emailIdx2 }, .ok id)
      else
        if u.PhoneNo = [] then
          match evErr with
          | some e => (db, .error e)
          | none =>
            ({ db with usersSeq := id, users := users2,
                       userEvents := userEvents2 }, .ok id)
        else if db.hasPhoneIdx then
          match putErr u.PhoneNo with
          | some e => (db, .error e)
          | none =>
            ({ db with usersSeq := id, users := users2,
                       userEvents := userEvents2,
                       phoneNoToUserID :=
                         mput db.phoneNoToUserID u.PhoneNo (idToBytes id) },
             .ok id)
        else
          match evErr with
          | some e => (db, .error e)
          | none =>
            ({ db with usersSeq := id, users := users2,
                       userEvents := userEvents2 }, .ok id)

/-- Fold of AddUser over a list of candidate users: the stores reachable
from a state by a sequence of AddUser calls. -/
def addAll (db : DB) (us : List User) : DB :=
  us.foldl (fun d u => (d.AddUser u).1) db

/-- Number of primary records carrying a non-empty phone field. -/
def phoneCount (m : List (Bytes × User)) : Nat :=
  m.countP fun kv => !kv.2.PhoneNo.isEmpty

/-- Model of the lifecycle state of the Store struct (store.go): the open
flag guarded by the embedded mutex. The bolt handle itself plays no part in
the flag logic, so it is not carried. -/
structure Store where
  openFlag : Bool
deriving DecidableEq, Repr

/-- A freshly allocated Store: the zero value of the struct. -/
def newStore : Store := { openFlag := false }

/-- Model of Store.Open (store.go) as a function of whether bolt.Open
succeeds. The source assigns to the open flag only inside the branch in
which bolt.Open returned a non-nil error, setting it to true there, and
returns that error; on success the flag is left untouched. -/
def Store.Open (s : Store) (boltOpenOk : Bool) : Store × Option StoreErr :=
  if boltOpenOk then (s, none)
  else ({ s with openFlag := true }, some .openFailed)

/-- Model of Store.Close (store.go): fail when the open flag is not set,
otherwise clear the flag and close the bolt handle. -/
def Store.Close (s : Store) : Store × Option StoreErr :=
  if s.openFlag then ({ s with openFlag := false }, none)
  else (s, some .notOpen)

theorem lexLt_irrefl : ∀ (a : Bytes), lexLt a a = false
  | [] => rfl
  | _ :: as => by simp [lexLt, lexLt_irrefl as]

theorem lexLt_trans : ∀ (a b c : Bytes), lexLt a b = true → lexLt b c = true →
    lexLt a c = true
  | [], [], _, h1, _ => by simp [lexLt] at h1
  | [], _ :: _, [], _, h2 => by simp [lexLt] at h2
  | [], _ :: _, _ :: _, _, _ => by simp [lexLt]
  | _ :: _, [], _, h1, _ => by simp [lexLt] at h1
  | _ :: _, _ :: _, [], _, h2 => by simp [lexLt] at h2
  | x :: as, y :: bs, z :: cs, h1, h2 => by
    simp only [lexLt] at h1 h2 ⊢
    rcases Nat.lt_trichotomy x y with hxy | hxy | hxy
    · rcases Nat.lt_trichotomy y z with hyz | hyz | hyz
      · simp [show x < z from by omega]
      · simp [show x < z from by omega]
      · simp [show ¬ y < z from by omega, show z < y from hyz] at h2
    · subst hxy
      rcases Nat.lt_trichotomy x z with hxz | hxz | hxz
      · simp [hxz]
      · subst hxz
        simp only [Nat.lt_irrefl, if_false] at h1 h2 ⊢
        exact lexLt_trans as bs cs h1 h2
      · simp [show ¬ x < z from by omega, hxz] at h2
    · simp [show ¬ x < y from by omega, hxy] at h1

theorem hasPfx_lexLt : ∀ (p k : Bytes), hasPfx p k = true → lexLt k p = false
  | [], [], _ => rfl
  | [], _ :: _, _ => rfl
  | _ :: _, [], h => by simp [hasPfx] at h
  | a :: p, b :: k, h => by
    simp only [hasPfx, Bool.and_eq_true, beq_iff_eq] at h
    obtain ⟨rfl, h2⟩ := h
    simp only [lexLt, Nat.lt_irrefl, if_false]
    exact hasPfx_lexLt p k h2

theorem hasPfx_between : ∀ (p k k2 : Bytes), lexLt k p = false →
    hasPfx p k = false → lexLt k k2 = true → hasPfx p k2 = false
  | [], k, _, _, h2, _ => by simp [hasPfx] at h2
  | _ :: _, [], _, h1, _, _ => by simp [lexLt] at h1
  | _ :: _, _ :: _, [], _, _, h3 => by simp [lexLt] at h3
  | a :: p, b :: k, c :: k2, h1, h2, h3 => by
    simp only [lexLt] at h1 h3
    simp only [hasPfx, Bool.and_eq_false_imp, beq_iff_eq, Bool.not_eq_true] at h2 ⊢
    intro hac
    subst hac
    rcases Nat.lt_trichotomy b a with hba | hba | hba
    · simp [hba] at h1
    · subst hba
      simp only [Nat.lt_irrefl, if_false] at h1 h3
      exact hasPfx_between p k k2 h1 (h2 rfl) h3
    · simp [show ¬ b < a from by omega, show a < b from hba] at h3

theorem mget_mput_self {α : Type} : ∀ (m : List (Bytes × α)) (k : Bytes) (v : α),
    mget (mput m k v) k = some v
  | [], k, v => by simp [mput, mget]
  | (k1, v1) :: t, k, v => by
    simp only [mput]
    split
    · simp [mget]
    · split
      · simp [mget]
      · rename_i hlt hne
        simp only [mget, if_neg hne]
        exact mget_mput_self t k v

theorem mget_mput_other {α : Type} : ∀ (m : List (Bytes × α)) (k k2 : Bytes) (v : α),
    k2 ≠ k → mget (mput m k v) k2 = mget m k2
  | [], k, k2, v, h => by simp [mput, mget, h]
  | (k1, v1) :: t, k, k2, v, h => by
    simp only [mput]
    split
    · simp [mget, h]
    · split
      · rename_i _ hk
        subst hk
        simp [mget, h]
      · simp only [mget]
        split
        · rfl
        · exact mget_mput_other t k k2 v h

theorem mput_split {α : Type} : ∀ (m : List (Bytes × α)) (k : Bytes) (v : α),
    mget m k = none → ∃ l1 l2, m = l1 ++ l2 ∧ mput m k v = l1 ++ (k, v) :: l2
  | [], k, v, _ => ⟨[], [], rfl, rfl⟩
  | (k1, v1) :: t, k, v, h => by
    simp only [mget] at h
    by_cases hk : k = k1
    · simp [hk] at h
    · rw [if_neg hk] at h
      by_cases hl : lexLt k k1 = true
      · exact ⟨[], (k1, v1) :: t, rfl, by simp [mput, hl]⟩
      · obtain ⟨l1, l2, he, hp⟩ := mput_split t k v h
        exact ⟨(k1, v1) :: l1, l2, by simp [he], by simp [mput, hl, hk, hp]⟩

theorem mget_some_mem {α : Type} : ∀ (m : List (Bytes × α)) (k : Bytes) (v : α),
    mget m k = some v → (k, v) ∈ m
  | [], _, _, h => by simp [mget] at h
  | (k1, v1) :: t, k, v, h => by
    simp only [mget] at h
    split at h
    · rename_i he
      cases h
      subst he
      exact List.mem_cons_self _ _
    · exact List.mem_cons_of_mem _ (mget_some_mem t k v h)

theorem idFromBytes_idToBytes (a : Nat) (h : a < 18446744073709551616) :
    idFromBytes (idToBytes a) = a := by
  simp only [idToBytes, idFromBytes, List.take, List.foldl]
  norm_num
  omega

/-- Big-endian base-256 digit list of width k, used only to reason about
idToBytes. -/
def beBytes : Nat → Nat → Bytes
  | 0, _ => []
  | k + 1, v => v / 256 ^ k :: beBytes k (v % 256 ^ k)

theorem beBytes_lexLt : ∀ (k v w : Nat), v < 256 ^ k → w < 256 ^ k →
    (lexLt (beBytes k v) (beBytes k w) = true ↔ v < w)
  | 0, v, w, hv, hw => by
    simp only [pow_zero, Nat.lt_one_iff] at hv hw
    subst hv; subst hw
    simp [beBytes, lexLt]
  | k + 1, v, w, hv, hw => by
    have hB : (0:Nat) < 256 ^ k := Nat.pos_pow_of_pos _ (by norm_num)
    simp only [beBytes, lexLt]
    rcases Nat.lt_trichotomy (v / 256 ^ k) (w / 256 ^ k) with h | h | h
    · simp only [h, if_true, true_iff]
      exact Nat.lt_of_div_lt_div h
    · rw [h]
      simp only [Nat.lt_irrefl, if_false]
      rw [beBytes_lexLt k _ _ (Nat.mod_lt _ hB) (Nat.mod_lt _ hB)]
      have key : v < w ↔ v % 256 ^ k < w % 256 ^ k := by
        conv_lhs => rw [← Nat.div_add_mod v (256 ^ k), ← Nat.div_add_mod w (256 ^ k)]
        rw [h]
        exact Nat.add_lt_add_iff_left
      exact key.symm
    · have hwv : w < v := Nat.lt_of_div_lt_div h
      rw [if_neg (show ¬ (v / 256 ^ k < w / 256 ^ k) from by omega), if_pos h]
      simp only [Bool.false_eq_true, false_iff]
      omega

theorem digitStep (a j : Nat) : a % 256 ^ (j + 1) / 256 ^ j = a / 256 ^ j % 256 := by
  rw [pow_succ]
  exact Nat.mod_mul_right_div_self a (256 ^ j) 256

theorem idToBytes_eq_beBytes (a : Nat) (h : a < 18446744073709551616) :
    idToBytes a = beBytes 8 a := by
  have e6 : a % 256 ^ 7 % 256 ^ 6 = a % 256 ^ 6 := Nat.mod_mod_of_dvd a (pow_dvd_pow 256 (by norm_num))
  have e5 : a % 256 ^ 6 % 256 ^ 5 = a % 256 ^ 5 := Nat.mod_mod_of_dvd a (pow_dvd_pow 256 (by norm_num))
  have e4 : a % 256 ^ 5 % 256 ^ 4 = a % 256 ^ 4 := Nat.mod_mod_of_dvd a (pow_dvd_pow 256 (by norm_num))
  have e3 : a % 256 ^ 4 % 256 ^ 3 = a % 256 ^ 3 := Nat.mod_mod_of_dvd a (pow_dvd_pow 256 (by norm_num))
  have e2 : a % 256 ^ 3 % 256 ^ 2 = a % 256 ^ 2 := Nat.mod_mod_of_dvd a (pow_dvd_pow 256 (by norm_num))
  have e1 : a % 256 ^ 2 % 256 ^ 1 = a % 256 ^ 1 := Nat.mod_mod_of_dvd a (pow_dvd_pow 256 (by norm_num))
  have htop : a / 2 ^ 56 % 256 = a / 256 ^ 7 := by
    rw [show (256:Nat) ^ 7 = 2 ^ 56 from by norm_num]
    exact Nat.mod_eq_of_lt (by omega)
  simp only [idToBytes, beBytes, e6, e5, e4, e3, e2, e1, List.cons.injEq, and_true]
  refine ⟨htop, ?_, ?_, ?_, ?_, ?_, ?_, ?_⟩
  · rw [digitStep a 6]; norm_num
  · rw [digitStep a 5]; norm_num
  · rw [digitStep a 4]; norm_num
  · rw [digitStep a 3]; norm_num
  · rw [digitStep a 2]; norm_num
  · rw [digitStep a 1]; norm_num
  · norm_num

theorem lexLt_idToBytes (a b : Nat) (ha : a < 18446744073709551616)
    (hb : b < 18446744073709551616) :
    (lexLt (idToBytes a) (idToBytes b) = true ↔ a < b) := by
  rw [idToBytes_eq_beBytes a ha, idToBytes_eq_beBytes b hb]
  have h8 : (256:Nat) ^ 8 = 18446744073709551616 := by norm_num
  exact beBytes_lexLt 8 a b (by rw [h8]; exact ha) (by rw [h8]; exact hb)

theorem idToBytes_inj (a b : Nat) (ha : a < 18446744073709551616)
    (hb : b < 18446744073709551616) (h : idToBytes a = idToBytes b) : a = b := by
  have h1 := idFromBytes_idToBytes a ha
  have h2 := idFromBytes_idToBytes b hb
  rw [← h1, ← h2, h]

/-- C9: the id codec is order-preserving and invertible: for all uint64
values a and b, idToBytes a is byte-lexicographically below idToBytes b
exactly when a < b, and idFromBytes inverts idToBytes. -/
theorem claim_C9_id_codec (a b : Nat) (ha : a < 18446744073709551616)
    (hb : b < 18446744073709551616) :
    (lexLt (idToBytes a) (idToBytes b) = true ↔ a < b) ∧
    idFromBytes (idToBytes a) = a :=
  ⟨lexLt_idToBytes a b ha hb, idFromBytes_idToBytes a ha⟩

/-- Witness for C9 at a = 1, b = 2. -/
theorem claim_C9_id_codec_witness :
    (1 : Nat) < 18446744073709551616 ∧ (2 : Nat) < 18446744073709551616 ∧
    ((lexLt (idToBytes 1) (idToBytes 2) = true ↔ 1 < 2) ∧
     idFromBytes (idToBytes 1) = 1) :=
  ⟨by norm_num, by norm_num, claim_C9_id_codec 1 2 (by norm_num) (by norm_num)⟩

/-- C1: the claim fails against the intent of the code in a way that marks a
slip in the source. Store.Open assigns the open flag only inside the branch
in which bolt.Open returned a non-nil error, so after a successful Open the
flag is still false and Close fails with the NotOpen error, while after a
failed Open the flag is true and Close proceeds. main.go defers Close right
after a successful Open expecting it to release the handle, so the claim
states the evident intent and the inverted branch is a code bug. This
theorem evaluates the model at the failing input: a fresh store whose Open
succeeded. -/
theorem claim_C1_close_after_open :
    (newStore.Open true).2 = none ∧
    ((newStore.Open true).1.Close).2 = some .notOpen ∧
    ((newStore.Open false).1.Close).2 = none := by decide

/-- C7: a candidate whose email fails the validity predicate is rejected
before the transaction starts: AddUser returns the validation error and the
whole database value, hence the primary bucket, both indexes, the event
bucket and the sequence counter, is unchanged. -/
theorem claim_C7_invalid_no_mutation (db : DB) (u : User)
    (hv : u.IsValid = false) :
    db.AddUser u = (db, .error .notValid) := by
  simp [DB.AddUser, hv]

/-- Witness for C7: the literal email not-an-email on the initialised empty
store. -/
theorem claim_C7_invalid_no_mutation_witness :
    User.IsValid { ID := 0, Email := [110, 111, 116, 45, 97, 110, 45, 101, 109, 97, 105, 108], PhoneNo := [] } = false ∧
    initDB.AddUser { ID := 0, Email := [110, 111, 116, 45, 97, 110, 45, 101, 109, 97, 105, 108], PhoneNo := [] }
      = (initDB, .error .notValid) :=
  ⟨by decide,
   claim_C7_invalid_no_mutation initDB
     { ID := 0, Email := [110, 111, 116, 45, 97, 110, 45, 101, 109, 97, 105, 108], PhoneNo := [] }
     (by decide)⟩

/-- C10: on a store whose buckets were never created, every exact-match read
is total, has no side effect (the reads are pure functions of the state) and
returns exactly the error value an initialised empty store returns for a
lookup miss, so an uninitialised store cannot be told apart from an empty
one by these readers. -/
theorem claim_C10_uninit_reads (id : Nat) (email phoneNo : Bytes) :
    uninitDB.GetUser id = .error (.userNotFound id) ∧
    initDB.GetUser id = .error (.userNotFound id) ∧
    uninitDB.GetUserIDUsingEmail email = .error (.emailNotFound email) ∧
    initDB.GetUserIDUsingEmail email = .error (.emailNotFound email) ∧
    uninitDB.GetUserIDUsingPhoneNo phoneNo = .error (.phoneNotFound phoneNo) ∧
    initDB.GetUserIDUsingPhoneNo phoneNo = .error (.phoneNotFound phoneNo) := by
  simp [uninitDB, initDB, DB.Init, DB.GetUser, DB.GetUserIDUsingEmail,
        DB.GetUserIDUsingPhoneNo, mget]

/-- C2 counterexample: on the initialised empty store, whose email index
exists and holds no key at all, a fuzzy search for the byte x returns a
success carrying the empty list, not a NotFound error, so the claim as
stated is false. -/
theorem claim_C2_counterexample :
    initDB.GetUserIDsMatchingFuzzyEmail [120] = .ok [] := rfl

theorem takeWhile_eq_filter {α : Type} (p : Bytes) :
    ∀ (m : List (Bytes × α)),
    List.Pairwise (fun x y => lexLt x.1 y.1 = true) m →
    (∀ kv ∈ m, lexLt kv.1 p = false) →
    (m.takeWhile fun kv => hasPfx p kv.1) = m.filter fun kv => hasPfx p kv.1
  | [], _, _ => rfl
  | (k, v) :: t, hp, hge => by
    rw [List.pairwise_cons] at hp
    obtain ⟨hhead, hpt⟩ := hp
    by_cases hk : hasPfx p k = true
    · rw [List.takeWhile_cons, List.filter_cons]
      simp only [hk, if_true]
      rw [takeWhile_eq_filter p t hpt (fun kv hm2 => hge kv (List.mem_cons_of_mem _ hm2))]
    · have hk2 : hasPfx p k = false := by
        cases hh : hasPfx p k
        · rfl
        · exact absurd hh hk
      have hnil : (t.filter fun kv => hasPfx p kv.1) = [] := by
        rw [List.filter_eq_nil_iff]
        intro kv hm2
        have hb := hasPfx_between p k kv.1 (hge (k, v) (List.mem_cons_self _ _)) hk2
          (hhead kv hm2)
        simp [hb]
      rw [List.takeWhile_cons, List.filter_cons]
      simp [hk2, hnil]

theorem seek_scan_eq_filter {α : Type} (p : Bytes) :
    ∀ (m : List (Bytes × α)),
    List.Pairwise (fun x y => lexLt x.1 y.1 = true) m →
    ((m.dropWhile fun kv => lexLt kv.1 p).takeWhile fun kv => hasPfx p kv.1)
      = m.filter fun kv => hasPfx p kv.1
  | [], _ => rfl
  | (k, v) :: t, hp => by
    have hp2 := hp
    rw [List.pairwise_cons] at hp2
    obtain ⟨hhead, hpt⟩ := hp2
    by_cases hd : lexLt k p = true
    · have hkp : hasPfx p k = false := by
        cases hh : hasPfx p k
        · rfl
        · rw [hasPfx_lexLt p k hh] at hd
          cases hd
      rw [List.dropWhile_cons, List.filter_cons]
      simp only [hd, if_true, hkp, Bool.false_eq_true, if_false]
      exact seek_scan_eq_filter p t hpt
    · have hge : ∀ kv ∈ (k, v) :: t, lexLt kv.1 p = false := by
        intro kv hm2
        rcases List.mem_cons.mp hm2 with he | hm3
        · subst he
          cases hh : lexLt k p
          · rfl
          · exact absurd hh hd
        · cases hh : lexLt kv.1 p
          · rfl
          · have ht := lexLt_trans k kv.1 p (hhead kv hm3) hh
            exact absurd ht hd
      rw [List.dropWhile_cons]
      simp only [hd, if_false]
      exact takeWhile_eq_filter p ((k, v) :: t) hp hge

/-- C5: over a store whose users bucket and email index exist, with the
index in its maintained ascending key order, the fuzzy search returns
exactly the ids of the index entries whose key has the argument as a byte
prefix, in ascending email key order (the matched entries stay pairwise
ascending), and the empty argument returns the id of every entry. -/
theorem claim_C5_fuzzy_returns_matches (db : DB) (p : Bytes)
    (hu : db.hasUsers = true) (he : db.hasEmailIdx = true)
    (hs : List.Pairwise (fun x y => lexLt x.1 y.1 = true) db.emailToUserID) :
    db.GetUserIDsMatchingFuzzyEmail p
      = .ok ((db.emailToUserID.filter fun kv => hasPfx p kv.1).map
               fun kv => idFromBytes kv.2) ∧
    List.Pairwise (fun x y => lexLt x.1 y.1 = true)
      (db.emailToUserID.filter fun kv => hasPfx p kv.1) ∧
    db.GetUserIDsMatchingFuzzyEmail []
      = .ok (db.emailToUserID.map fun kv => idFromBytes kv.2) := by
  refine ⟨?_, List.Pairwise.filter _ hs, ?_⟩
  · simp only [DB.GetUserIDsMatchingFuzzyEmail, hu, he, if_true]
    rw [seek_scan_eq_filter p db.emailToUserID hs]
  · simp only [DB.GetUserIDsMatchingFuzzyEmail, hu, he, if_true]
    rw [seek_scan_eq_filter [] db.emailToUserID hs]
    have hall : (db.emailToUserID.filter fun kv => hasPfx [] kv.1)
        = db.emailToUserID := by
      rw [List.filter_eq_self]
      intro kv _
      rfl
    rw [hall]

/-- Concrete candidate with email a@b.com and phone 555. -/
def userA : User :=
  { ID := 0, Email := [97, 64, 98, 46, 99, 111, 109], PhoneNo := [53, 53, 53] }

/-- Concrete candidate with email b@b.com and no phone. -/
def userB : User :=
  { ID := 0, Email := [98, 64, 98, 46, 99, 111, 109], PhoneNo := [] }

/-- Concrete candidate sharing the email of userA, with no phone. -/
def userDupA : User :=
  { ID := 0, Email := [97, 64, 98, 46, 99, 111, 109], PhoneNo := [] }

/-- Witness for C5 on the store holding userA and userB, with the one-byte
argument a matching only the email of userA. -/
theorem claim_C5_fuzzy_returns_matches_witness :
    ((addAll initDB [userA, userB]).hasUsers = true ∧
     (addAll initDB [userA, userB]).hasEmailIdx = true ∧
     List.Pairwise (fun x y => lexLt x.1 y.1 = true)
       (addAll initDB [userA, userB]).emailToUserID) ∧
    ((addAll initDB [userA, userB]).GetUserIDsMatchingFuzzyEmail [97]
      = .ok (((addAll initDB [userA, userB]).emailToUserID.filter
                fun kv => hasPfx [97] kv.1).map fun kv => idFromBytes kv.2) ∧
     List.Pairwise (fun x y => lexLt x.1 y.1 = true)
       ((addAll initDB [userA, userB]).emailToUserID.filter
          fun kv => hasPfx [97] kv.1) ∧
     (addAll initDB [userA, userB]).GetUserIDsMatchingFuzzyEmail []
      = .ok ((addAll initDB [userA, userB]).emailToUserID.map
               fun kv => idFromBytes kv.2)) :=
  ⟨⟨by decide, by decide, by decide⟩,
   claim_C5_fuzzy_returns_matches (addAll initDB [userA, userB]) [97]
     (by decide) (by decide) (by decide)⟩

/-- C2 amended: the fuzzy search fails with the NotFound error exactly when
the users bucket or the email index bucket is missing; when both exist and
no key has the argument as a byte prefix, it returns success carrying the
empty list rather than an error. -/
theorem claim_C2_amended_fuzzy_empty (db : DB) (p : Bytes)
    (hs : List.Pairwise (fun x y => lexLt x.1 y.1 = true) db.emailToUserID) :
    ((db.hasUsers = false ∨ db.hasEmailIdx = false) →
        db.GetUserIDsMatchingFuzzyEmail p = .error (.fuzzyNotFound p)) ∧
    (db.hasUsers = true → db.hasEmailIdx = true →
        (∀ kv ∈ db.emailToUserID, hasPfx p kv.1 = false) →
        db.GetUserIDsMatchingFuzzyEmail p = .ok []) := by
  constructor
  · rintro (h | h)
    · simp [DB.GetUserIDsMatchingFuzzyEmail, h]
    · cases hu : db.hasUsers <;> simp [DB.GetUserIDsMatchingFuzzyEmail, h, hu]
  · intro hu he hno
    simp only [DB.GetUserIDsMatchingFuzzyEmail, hu, he, if_true]
    rw [seek_scan_eq_filter p db.emailToUserID hs]
    rw [List.filter_eq_nil_iff.mpr (fun kv hm2 => by simp [hno kv hm2])]
    rfl

/-- Witness for C2 amended at the initialised empty store and the one-byte
argument x. -/
theorem claim_C2_amended_fuzzy_empty_witness :
    List.Pairwise (fun x y => lexLt x.1 y.1 = true) initDB.emailToUserID ∧
    (((initDB.hasUsers = false ∨ initDB.hasEmailIdx = false) →
        initDB.GetUserIDsMatchingFuzzyEmail [120] = .error (.fuzzyNotFound [120])) ∧
     (initDB.hasUsers = true → initDB.hasEmailIdx = true →
        (∀ kv ∈ initDB.emailToUserID, hasPfx [120] kv.1 = false) →
        initDB.GetUserIDsMatchingFuzzyEmail [120] = .ok [])) :=
  ⟨by decide, claim_C2_amended_fuzzy_empty initDB [120] (by decide)⟩

theorem putErr_idToBytes (v : Nat) : putErr (idToBytes v) = none := by
  simp [putErr, idToBytes]

theorem mput_mem {α : Type} (m : List (Bytes × α)) (k : Bytes) (v : α)
    (h : mget m k = none) (x : Bytes × α) :
    x ∈ mput m k v ↔ x = (k, v) ∨ x ∈ m := by
  obtain ⟨l1, l2, he, hp⟩ := mput_split m k v h
  subst he
  rw [hp]
  simp only [List.mem_append, List.mem_cons]
  tauto

theorem mput_length_fresh {α : Type} (m : List (Bytes × α)) (k : Bytes) (v : α)
    (h : mget m k = none) : (mput m k v).length = m.length + 1 := by
  obtain ⟨l1, l2, he, hp⟩ := mput_split m k v h
  subst he
  rw [hp]
  simp only [List.length_append, List.length_cons]
  omega

theorem mput_countP {α : Type} (m : List (Bytes × α)) (k : Bytes) (v : α)
    (q : Bytes × α → Bool) (h : mget m k = none) :
    (mput m k v).countP q = m.countP q + (if q (k, v) then 1 else 0) := by
  obtain ⟨l1, l2, he, hp⟩ := mput_split m k v h
  subst he
  rw [hp]
  rw [List.countP_append, List.countP_append, List.countP_cons]
  omega

theorem addUser_ok_shape (db db2 : DB) (u : User) (i : Nat)
    (hm : db.hasEmailIdx = true)
    (h : db.AddUser u = (db2, .ok i)) :
    db.hasUsers = true ∧
    i = (db.usersSeq + 1) % 18446744073709551616 ∧
    db2.hasUsers = true ∧ db2.hasEmailIdx = true ∧ db2.hasPhoneIdx = db.hasPhoneIdx ∧
    db2.usersSeq = i ∧
    db2.users = mput db.users (idToBytes i) { u with ID := i } ∧
    db2.emailToUserID = mput db.emailToUserID u.Email (idToBytes i) ∧
    (u.PhoneNo ≠ [] → db.hasPhoneIdx = true →
      db2.phoneNoToUserID = mput db.phoneNoToUserID u.PhoneNo (idToBytes i)) := by
  simp only [DB.AddUser, putErr_idToBytes, hm, if_true] at h
  split at h
  · exact absurd h (by simp)
  · split at h
    · exact absurd h (by simp)
    · rename_i hval hus
      have hu : db.hasUsers = true := by
        cases hx : db.hasUsers
        · rw [hx] at hus
          exact absurd rfl hus
        · rfl
      split at h
      · exact absurd h (by simp)
      · split at h
        · rename_i hpe hph
          rw [Prod.mk.injEq] at h
          obtain ⟨h1, h2⟩ := h
          rw [Except.ok.injEq] at h2
          subst h2
          subst h1
          refine ⟨hu, rfl, hu, rfl, rfl, rfl, rfl, rfl, ?_⟩
          intro hc _
          exact absurd hph hc
        · split at h
          · split at h
            · exact absurd h (by simp)
            · rw [Prod.mk.injEq] at h
              obtain ⟨h1, h2⟩ := h
              rw [Except.ok.injEq] at h2
              subst h2
              subst h1
              exact ⟨hu, rfl, hu, rfl, rfl, rfl, rfl, rfl, fun _ _ => rfl⟩
          · rename_i hpe hph hpi
            rw [Prod.mk.injEq] at h
            obtain ⟨h1, h2⟩ := h
            rw [Except.ok.injEq] at h2
            subst h2
            subst h1
            refine ⟨hu, rfl, hu, rfl, rfl, rfl, rfl, rfl, ?_⟩
            intro _ hc
            rw [hc] at hpi
            exact absurd rfl hpi

/-- C6: after a successful AddUser of a valid candidate with a non-empty
phone, on a store whose email and phone index buckets exist, GetUser returns
the stored record with byte-identical email and phone fields, and the two
exact-match index lookups return the assigned id. -/
theorem claim_C6_lookups_after_add (db db2 : DB) (u : User) (i : Nat)
    (hm : db.hasEmailIdx = true) (hp : db.hasPhoneIdx = true)
    (_hv : u.IsValid = true) (hph : u.PhoneNo ≠ [])
    (h : db.AddUser u = (db2, .ok i)) :
    db2.GetUser i = .ok { ID := i, Email := u.Email, PhoneNo := u.PhoneNo } ∧
    db2.GetUserIDUsingEmail u.Email = .ok i ∧
    db2.GetUserIDUsingPhoneNo u.PhoneNo = .ok i := by
  obtain ⟨hu0, hi, hu2, hm2, hp2, hs2, hus2, he2, hpn⟩ := addUser_ok_shape db db2 u i hm h
  have hiM : i < 18446744073709551616 := by omega
  have hp3 : db2.hasPhoneIdx = true := by rw [hp2, hp]
  refine ⟨?_, ?_, ?_⟩
  · simp only [DB.GetUser, hu2, if_true, hus2, mget_mput_self]
  · simp only [DB.GetUserIDUsingEmail, hu2, hm2, if_true, he2, mget_mput_self,
      idFromBytes_idToBytes i hiM]
  · rw [DB.GetUserIDUsingPhoneNo, hu2, hp3, hpn hph hp]
    simp only [if_true, mget_mput_self, idFromBytes_idToBytes i hiM]

/-- Witness for C6: userA added to the initialised empty store. -/
theorem claim_C6_lookups_after_add_witness :
    (initDB.hasEmailIdx = true ∧ initDB.hasPhoneIdx = true ∧
     userA.IsValid = true ∧ userA.PhoneNo ≠ [] ∧
     initDB.AddUser userA = ((initDB.AddUser userA).1, .ok 1)) ∧
    ((initDB.AddUser userA).1.GetUser 1
       = .ok { ID := 1, Email := userA.Email, PhoneNo := userA.PhoneNo } ∧
     (initDB.AddUser userA).1.GetUserIDUsingEmail userA.Email = .ok 1 ∧
     (initDB.AddUser userA).1.GetUserIDUsingPhoneNo userA.PhoneNo = .ok 1) :=
  ⟨⟨rfl, rfl, by decide, by decide, rfl⟩,
   claim_C6_lookups_after_add initDB (initDB.AddUser userA).1 userA 1 rfl rfl
     (by decide) (by decide) rfl⟩

/-- C8: the ids of two consecutive successful AddUser calls on the same
store strictly increase: the first commit persists the incremented sequence
counter and the second call increments it again. The arithmetic bound rules
out wraparound of the 64-bit counter, which holds for every physically
realizable call sequence. -/
theorem claim_C8_ids_strictly_increase (db db1 db2 : DB) (u1 u2 : User)
    (i1 i2 : Nat)
    (hm : db.hasEmailIdx = true)
    (hseq : db.usersSeq + 2 < 18446744073709551616)
    (h1 : db.AddUser u1 = (db1, .ok i1))
    (h2 : db1.AddUser u2 = (db2, .ok i2)) : i1 < i2 := by
  obtain ⟨_, hi1, _, hm1, _, hs1, _⟩ := addUser_ok_shape db db1 u1 i1 hm h1
  obtain ⟨_, hi2, _⟩ := addUser_ok_shape db1 db2 u2 i2 hm1 h2
  rw [hs1] at hi2
  omega

/-- Witness for C8: userA and then userB added to the initialised empty
store receive ids 1 and 2. -/
theorem claim_C8_ids_strictly_increase_witness :
    (initDB.hasEmailIdx = true ∧
     initDB.usersSeq + 2 < 18446744073709551616 ∧
     initDB.AddUser userA = ((initDB.AddUser userA).1, .ok 1) ∧
     (initDB.AddUser userA).1.AddUser userB
       = (((initDB.AddUser userA).1.AddUser userB).1, .ok 2)) ∧
    (1 : Nat) < 2 :=
  ⟨⟨rfl, by decide, rfl, rfl⟩,
   claim_C8_ids_strictly_increase initDB (initDB.AddUser userA).1
     ((initDB.AddUser userA).1.AddUser userB).1 userA userB 1 2 rfl
     (by decide) rfl rfl⟩

theorem addUser_good_eq (db : DB) (u : User)
    (hu : db.hasUsers = true) (hev : db.hasUserEvents = true)
    (hm : db.hasEmailIdx = true) (hp : db.hasPhoneIdx = true)
    (hv : u.IsValid = true)
    (hee : u.Email ≠ []) (hel : u.Email.length ≤ 32768)
    (hpl : u.PhoneNo.length ≤ 32768)
    (hfr : idToBytes ((db.usersSeq + 1) % 18446744073709551616) ∉ db.userEvents) :
    db.AddUser u =
      ({ db with
          usersSeq := (db.usersSeq + 1) % 18446744073709551616,
          users := mput db.users
            (idToBytes ((db.usersSeq + 1) % 18446744073709551616))
            { u with ID := (db.usersSeq + 1) % 18446744073709551616 },
          userEvents := db.userEvents
            ++ [idToBytes ((db.usersSeq + 1) % 18446744073709551616)],
          emailToUserID := mput db.emailToUserID u.Email
            (idToBytes ((db.usersSeq + 1) % 18446744073709551616)),
          phoneNoToUserID :=
            if u.PhoneNo = [] then db.phoneNoToUserID
            else mput db.phoneNoToUserID u.PhoneNo
              (idToBytes ((db.usersSeq + 1) % 18446744073709551616)) },
       .ok ((db.usersSeq + 1) % 18446744073709551616)) := by
  have hpe : putErr u.Email = none := by
    rw [putErr, if_neg (by simpa using hee), if_neg (by omega)]
  by_cases hph : u.PhoneNo = []
  · simp [DB.AddUser, hv, hu, hev, hm, hp, putErr_idToBytes, hpe, hfr, hph]
  · have hppe : putErr u.PhoneNo = none := by
      rw [putErr, if_neg (by simpa using hph), if_neg (by omega)]
    simp [DB.AddUser, hv, hu, hev, hm, hp, putErr_idToBytes, hpe, hfr, hph, hppe]

/-- Invariant of the stores reachable from a fresh initialised file by a
sequence of AddUser calls: the four buckets exist, the counter fits 64 bits,
primary keys and event bucket names encode issued ids, every primary record
agrees with both indexes, the index sizes match the record counts, and every
index key is the email or phone of some record. -/
structure GoodState (db : DB) : Prop where
  hu : db.hasUsers = true
  hev : db.hasUserEvents = true
  hm : db.hasEmailIdx = true
  hp : db.hasPhoneIdx = true
  seqLt : db.usersSeq < 18446744073709551616
  userKeys : ∀ kv ∈ db.users,
    ∃ i, 1 ≤ i ∧ i ≤ db.usersSeq ∧ kv.1 = idToBytes i ∧ kv.2.ID = i
  evKeys : ∀ k ∈ db.userEvents, ∃ i, 1 ≤ i ∧ i ≤ db.usersSeq ∧ k = idToBytes i
  agreeE : ∀ kv ∈ db.users, mget db.emailToUserID kv.2.Email = some kv.1
  agreeP : ∀ kv ∈ db.users, kv.2.PhoneNo ≠ [] →
    mget db.phoneNoToUserID kv.2.PhoneNo = some kv.1
  ecount : db.emailToUserID.length = db.users.length
  pcount : db.phoneNoToUserID.length = phoneCount db.users
  eKeys : ∀ k v, mget db.emailToUserID k = some v → ∃ kv ∈ db.users, kv.2.Email = k
  pKeys : ∀ k v, mget db.phoneNoToUserID k = some v → ∃ kv ∈ db.users, kv.2.PhoneNo = k

theorem goodState_initDB : GoodState initDB := by
  refine ⟨rfl, rfl, rfl, rfl, by decide, ?_, ?_, ?_, ?_, rfl, rfl, ?_, ?_⟩ <;>
    simp [initDB, uninitDB, DB.Init, mget]

/-- The part of the reachable-state invariant that AddUser preserves with no
condition on the candidate: the four buckets exist, the counter fits 64
bits, and every event sub-bucket name encodes an already issued id. Unlike
GoodState it survives every call sequence, duplicate emails included. -/
structure EventState (db : DB) : Prop where
  hu : db.hasUsers = true
  hev : db.hasUserEvents = true
  hm : db.hasEmailIdx = true
  hp : db.hasPhoneIdx = true
  seqLt : db.usersSeq < 18446744073709551616
  evKeys : ∀ k ∈ db.userEvents, ∃ i, 1 ≤ i ∧ i ≤ db.usersSeq ∧ k = idToBytes i

theorem GoodState.toEventState {db : DB} (hg : GoodState db) : EventState db :=
  ⟨hg.hu, hg.hev, hg.hm, hg.hp, hg.seqLt, hg.evKeys⟩

theorem eventState_initDB : EventState initDB := by
  refine ⟨rfl, rfl, rfl, rfl, by decide, ?_⟩
  simp [initDB, uninitDB, DB.Init]

theorem eventState_event_fresh (db : DB) (hes : EventState db) :
    idToBytes ((db.usersSeq + 1) % 18446744073709551616) ∉ db.userEvents := by
  intro hc
  obtain ⟨i, hi1, hi2, hi3⟩ := hes.evKeys _ hc
  have hlt : (db.usersSeq + 1) % 18446744073709551616 < 18446744073709551616 :=
    Nat.mod_lt _ (by norm_num)
  have hsq := hes.seqLt
  have := idToBytes_inj _ i hlt (by omega) hi3
  omega

theorem goodStep (db : DB) (u : User)
    (hg : GoodState db)
    (hb : db.usersSeq + 1 < 18446744073709551616)
    (hv : u.IsValid = true)
    (hel : u.Email.length ≤ 32768)
    (hpl : u.PhoneNo.length ≤ 32768)
    (hef : ∀ kv ∈ db.users, kv.2.Email ≠ u.Email)
    (hpf : ∀ kv ∈ db.users, u.PhoneNo ≠ [] → kv.2.PhoneNo ≠ [] →
      kv.2.PhoneNo ≠ u.PhoneNo) :
    GoodState (db.AddUser u).1 ∧
    (db.AddUser u).1.usersSeq = db.usersSeq + 1 ∧
    (∀ kv ∈ (db.AddUser u).1.users,
      kv ∈ db.users ∨ (kv.2.Email = u.Email ∧ kv.2.PhoneNo = u.PhoneNo)) := by
  have hee : u.Email ≠ [] := by
    intro hc
    rw [User.IsValid, hc] at hv
    exact absurd hv (by decide)
  have hmod : (db.usersSeq + 1) % 18446744073709551616 = db.usersSeq + 1 :=
    Nat.mod_eq_of_lt hb
  have heq := addUser_good_eq db u hg.hu hg.hev hg.hm hg.hp hv hee hel hpl
    (eventState_event_fresh db hg.toEventState)
  rw [hmod] at heq
  have hfrP : mget db.users (idToBytes (db.usersSeq + 1)) = none := by
    cases hx : mget db.users (idToBytes (db.usersSeq + 1)) with
    | none => rfl
    | some w =>
      obtain ⟨i, hi1, hi2, hi3, _⟩ := hg.userKeys _ (mget_some_mem _ _ _ hx)
      have hsq := hg.seqLt
      have := idToBytes_inj _ i (by omega) (by omega) hi3
      omega
  have hfrE : mget db.emailToUserID u.Email = none := by
    cases hx : mget db.emailToUserID u.Email with
    | none => rfl
    | some w =>
      obtain ⟨kv, hkv, hke⟩ := hg.eKeys _ _ hx
      exact absurd hke (hef kv hkv)
  have hfrPh : u.PhoneNo ≠ [] → mget db.phoneNoToUserID u.PhoneNo = none := by
    intro hph
    cases hx : mget db.phoneNoToUserID u.PhoneNo with
    | none => rfl
    | some w =>
      obtain ⟨kv, hkv, hke⟩ := hg.pKeys _ _ hx
      exact absurd hke (hpf kv hkv hph (by rw [hke]; exact hph))
  have hA : (db.AddUser u).1.usersSeq = db.usersSeq + 1 := by rw [heq]
  have hB : (db.AddUser u).1.users
      = mput db.users (idToBytes (db.usersSeq + 1))
          { u with ID := db.usersSeq + 1 } := by rw [heq]
  have hC : (db.AddUser u).1.userEvents
      = db.userEvents ++ [idToBytes (db.usersSeq + 1)] := by rw [heq]
  have hD : (db.AddUser u).1.emailToUserID
      = mput db.emailToUserID u.Email (idToBytes (db.usersSeq + 1)) := by rw [heq]
  have hE : (db.AddUser u).1.phoneNoToUserID
      = (if u.PhoneNo = [] then db.phoneNoToUserID
         else mput db.phoneNoToUserID u.PhoneNo (idToBytes (db.usersSeq + 1))) := by
    rw [heq]
  have hF1 : (db.AddUser u).1.hasUsers = db.hasUsers := by rw [heq]
  have hF2 : (db.AddUser u).1.hasUserEvents = db.hasUserEvents := by rw [heq]
  have hF3 : (db.AddUser u).1.hasEmailIdx = db.hasEmailIdx := by rw [heq]
  have hF4 : (db.AddUser u).1.hasPhoneIdx = db.hasPhoneIdx := by rw [heq]
  refine ⟨⟨?_, ?_, ?_, ?_, ?_, ?_, ?_, ?_, ?_, ?_, ?_, ?_, ?_⟩, hA, ?_⟩
  · rw [hF1]; exact hg.hu
  · rw [hF2]; exact hg.hev
  · rw [hF3]; exact hg.hm
  · rw [hF4]; exact hg.hp
  · rw [hA]; exact hb
  · intro kv hkv
    rw [hB, mput_mem _ _ _ hfrP kv] at hkv
    rw [hA]
    rcases hkv with rfl | hold
    · exact ⟨db.usersSeq + 1, by omega, by omega, rfl, rfl⟩
    · obtain ⟨i, hi1, hi2, hi3, hi4⟩ := hg.userKeys kv hold
      exact ⟨i, hi1, by omega, hi3, hi4⟩
  · intro k hk
    rw [hC] at hk
    rw [hA]
    rcases List.mem_append.mp hk with hold | hnew
    · obtain ⟨i, hi1, hi2, hi3⟩ := hg.evKeys k hold
      exact ⟨i, hi1, by omega, hi3⟩
    · exact ⟨db.usersSeq + 1, by omega, by omega, List.mem_singleton.mp hnew⟩
  · intro kv hkv
    rw [hB, mput_mem _ _ _ hfrP kv] at hkv
    rw [hD]
    rcases hkv with rfl | hold
    · exact mget_mput_self _ _ _
    · rw [mget_mput_other _ _ _ _ (hef kv hold)]
      exact hg.agreeE kv hold
  · intro kv hkv hph2
    rw [hB, mput_mem _ _ _ hfrP kv] at hkv
    rw [hE]
    rcases hkv with rfl | hold
    · rw [if_neg hph2]
      exact mget_mput_self _ _ _
    · by_cases hph : u.PhoneNo = []
      · rw [if_pos hph]
        exact hg.agreeP kv hold hph2
      · rw [if_neg hph]
        rw [mget_mput_other _ _ _ _ (hpf kv hold hph hph2)]
        exact hg.agreeP kv hold hph2
  · rw [hB, hD, mput_length_fresh _ _ _ hfrE, mput_length_fresh _ _ _ hfrP,
      hg.ecount]
  · rw [hB, hE, phoneCount, mput_countP _ _ _ _ hfrP]
    by_cases hph : u.PhoneNo = []
    · rw [if_pos hph]
      simp only [hph, List.isEmpty_nil, Bool.not_true, Bool.false_eq_true,
        if_false, Nat.add_zero]
      exact hg.pcount
    · rw [if_neg hph, mput_length_fresh _ _ _ (hfrPh hph), hg.pcount, phoneCount]
      have : (!({ u with ID := db.usersSeq + 1 } : User).PhoneNo.isEmpty) = true := by
        simp [List.isEmpty_iff, hph]
      rw [if_pos this]
  · intro k v hkx
    rw [hD] at hkx
    by_cases hk : k = u.Email
    · subst hk
      refine ⟨(idToBytes (db.usersSeq + 1), { u with ID := db.usersSeq + 1 }),
        ?_, rfl⟩
      rw [hB, mput_mem _ _ _ hfrP]
      exact Or.inl rfl
    · rw [mget_mput_other _ _ _ _ hk] at hkx
      obtain ⟨kv, hkv, hke⟩ := hg.eKeys _ _ hkx
      refine ⟨kv, ?_, hke⟩
      rw [hB, mput_mem _ _ _ hfrP]
      exact Or.inr hkv
  · intro k v hkx
    rw [hE] at hkx
    by_cases hph : u.PhoneNo = []
    · rw [if_pos hph] at hkx
      obtain ⟨kv, hkv, hke⟩ := hg.pKeys _ _ hkx
      refine ⟨kv, ?_, hke⟩
      rw [hB, mput_mem _ _ _ hfrP]
      exact Or.inr hkv
    · rw [if_neg hph] at hkx
      by_cases hk : k = u.PhoneNo
      · subst hk
        refine ⟨(idToBytes (db.usersSeq + 1), { u with ID := db.usersSeq + 1 }),
          ?_, rfl⟩
        rw [hB, mput_mem _ _ _ hfrP]
        exact Or.inl rfl
      · rw [mget_mput_other _ _ _ _ hk] at hkx
        obtain ⟨kv, hkv, hke⟩ := hg.pKeys _ _ hkx
        refine ⟨kv, ?_, hke⟩
        rw [hB, mput_mem _ _ _ hfrP]
        exact Or.inr hkv
  · intro kv hkv
    rw [hB, mput_mem _ _ _ hfrP kv] at hkv
    rcases hkv with rfl | hold
    · exact Or.inr ⟨rfl, rfl⟩
    · exact Or.inl hold

theorem addAll_cons (db : DB) (u : User) (us : List User) :
    addAll db (u :: us) = addAll (db.AddUser u).1 us := rfl

/-- Batch distinctness needed by the amended index-agreement claim: distinct
emails, and distinct phones whenever both are non-empty. -/
def DistinctUsers (a b : User) : Prop :=
  a.Email ≠ b.Email ∧ (a.PhoneNo = [] ∨ b.PhoneNo = [] ∨ a.PhoneNo ≠ b.PhoneNo)

instance (a b : User) : Decidable (DistinctUsers a b) := by
  unfold DistinctUsers
  infer_instance

theorem goodRun : ∀ (us : List User) (db : DB),
    GoodState db →
    db.usersSeq + us.length < 18446744073709551616 →
    (∀ u ∈ us, u.IsValid = true ∧ u.Email.length ≤ 32768 ∧
      u.PhoneNo.length ≤ 32768) →
    (∀ u ∈ us, ∀ kv ∈ db.users, kv.2.Email ≠ u.Email ∧
      (u.PhoneNo ≠ [] → kv.2.PhoneNo ≠ [] → kv.2.PhoneNo ≠ u.PhoneNo)) →
    us.Pairwise DistinctUsers →
    GoodState (addAll db us)
  | [], db, hg, _, _, _, _ => hg
  | u :: rest, db, hg, hb, hv, hf, hpw => by
    simp only [List.length_cons] at hb
    obtain ⟨hv1, hel1, hpl1⟩ := hv u (List.mem_cons_self _ _)
    have hstep := goodStep db u hg (by omega) hv1 hel1 hpl1
      (fun kv hkv => (hf u (List.mem_cons_self _ _) kv hkv).1)
      (fun kv hkv => (hf u (List.mem_cons_self _ _) kv hkv).2)
    rw [List.pairwise_cons] at hpw
    obtain ⟨hhd, hptw⟩ := hpw
    rw [addAll_cons]
    apply goodRun rest (db.AddUser u).1 hstep.1
    · rw [hstep.2.1]; omega
    · exact fun u2 hm2 => hv u2 (List.mem_cons_of_mem _ hm2)
    · intro u2 hm2 kv hkv
      rcases hstep.2.2 kv hkv with hold | ⟨hkE, hkP⟩
      · exact hf u2 (List.mem_cons_of_mem _ hm2) kv hold
      · have hd := hhd u2 hm2
        constructor
        · rw [hkE]; exact hd.1
        · intro hp2 hp3
          rw [hkP] at hp3 ⊢
          rcases hd.2 with h | h | h
          · exact absurd h hp3
          · exact absurd h hp2
          · exact h
    · exact hptw

theorem addUser_email_err (db : DB) (u : User) (e : StoreErr)
    (hv : u.IsValid = true) (hu : db.hasUsers = true) (hm : db.hasEmailIdx = true)
    (hpe : putErr u.Email = some e) :
    db.AddUser u = (db, .error e) := by
  simp [DB.AddUser, hv, hu, hm, putErr_idToBytes, hpe]

theorem addUser_phone_err (db : DB) (u : User) (e : StoreErr)
    (hv : u.IsValid = true) (hu : db.hasUsers = true) (hm : db.hasEmailIdx = true)
    (hp : db.hasPhoneIdx = true)
    (hpe : putErr u.Email = none) (hph : u.PhoneNo ≠ [])
    (hppe : putErr u.PhoneNo = some e) :
    db.AddUser u = (db, .error e) := by
  simp [DB.AddUser, hv, hu, hm, hp, putErr_idToBytes, hpe, hph, hppe]

theorem addUser_invalid_eq (db : DB) (u : User) (hv : u.IsValid = false) :
    db.AddUser u = (db, .error .notValid) := by
  simp [DB.AddUser, hv]

theorem eventState_step (db : DB) (u : User)
    (hes : EventState db)
    (hb : db.usersSeq + 1 < 18446744073709551616) :
    EventState (db.AddUser u).1 ∧
    (db.AddUser u).1.usersSeq ≤ db.usersSeq + 1 := by
  by_cases hv : u.IsValid = true
  · have hee : u.Email ≠ [] := by
      intro hc
      rw [User.IsValid, hc] at hv
      exact absurd hv (by decide)
    by_cases hel : u.Email.length ≤ 32768
    · by_cases hpl : u.PhoneNo.length ≤ 32768
      · have heq := addUser_good_eq db u hes.hu hes.hev hes.hm hes.hp hv hee hel
          hpl (eventState_event_fresh db hes)
        rw [Nat.mod_eq_of_lt hb] at heq
        have hA : (db.AddUser u).1.usersSeq = db.usersSeq + 1 := by rw [heq]
        have hC : (db.AddUser u).1.userEvents
            = db.userEvents ++ [idToBytes (db.usersSeq + 1)] := by rw [heq]
        have hF1 : (db.AddUser u).1.hasUsers = db.hasUsers := by rw [heq]
        have hF2 : (db.AddUser u).1.hasUserEvents = db.hasUserEvents := by rw [heq]
        have hF3 : (db.AddUser u).1.hasEmailIdx = db.hasEmailIdx := by rw [heq]
        have hF4 : (db.AddUser u).1.hasPhoneIdx = db.hasPhoneIdx := by rw [heq]
        refine ⟨⟨?_, ?_, ?_, ?_, ?_, ?_⟩, by omega⟩
        · rw [hF1]; exact hes.hu
        · rw [hF2]; exact hes.hev
        · rw [hF3]; exact hes.hm
        · rw [hF4]; exact hes.hp
        · rw [hA]; exact hb
        · intro k hk
          rw [hC] at hk
          rw [hA]
          rcases List.mem_append.mp hk with hold | hnew
          · obtain ⟨i, hi1, hi2, hi3⟩ := hes.evKeys k hold
            exact ⟨i, hi1, by omega, hi3⟩
          · exact ⟨db.usersSeq + 1, by omega, by omega, List.mem_singleton.mp hnew⟩
      · have hph : u.PhoneNo ≠ [] := by
          intro hc
          rw [hc] at hpl
          simp at hpl
        have hppe : putErr u.PhoneNo = some .keyTooLarge := by
          rw [putErr, if_neg (by simpa using hph), if_pos (by omega)]
        have hpe : putErr u.Email = none := by
          rw [putErr, if_neg (by simpa using hee), if_neg (by omega)]
        rw [addUser_phone_err db u .keyTooLarge hv hes.hu hes.hm hes.hp hpe hph hppe]
        exact ⟨hes, Nat.le_succ _⟩
    · have hpe : putErr u.Email = some .keyTooLarge := by
        rw [putErr, if_neg (by simpa using hee), if_pos (by omega)]
      rw [addUser_email_err db u .keyTooLarge hv hes.hu hes.hm hpe]
      exact ⟨hes, Nat.le_succ _⟩
  · have hv2 : u.IsValid = false := by
      cases hx : u.IsValid
      · rfl
      · exact absurd hx hv
    rw [addUser_invalid_eq db u hv2]
    exact ⟨hes, Nat.le_succ _⟩

/-- EventState holds along every AddUser call sequence of fewer than 2^64
calls, with no condition whatsoever on the candidates: a failing call leaves
the state unchanged and a successful one appends exactly the freshly issued
id to the event bucket. In particular every committed execution, duplicate
emails included, stays inside EventState. -/
theorem eventRun : ∀ (us : List User) (db : DB),
    EventState db →
    db.usersSeq + us.length < 18446744073709551616 →
    EventState (addAll db us) ∧
    (addAll db us).usersSeq ≤ db.usersSeq + us.length
  | [], db, hes, _ => ⟨hes, by simp [addAll]⟩
  | u :: rest, db, hes, hb => by
    simp only [List.length_cons] at hb
    have hstep := eventState_step db u hes (by omega)
    rw [addAll_cons]
    have hrec := eventRun rest (db.AddUser u).1 hstep.1 (by omega)
    refine ⟨hrec.1, ?_⟩
    have h1 := hrec.2
    have h2 := hstep.2
    simp only [List.length_cons]
    omega

/-- Writes the specification lists for one successful AddUser unit of work,
stated against the pre-state: the primary record at the encoded id, the
event sub-bucket name, the email index entry, the phone index entry when the
phone is non-empty, the bumped sequence counter, and untouched bucket
flags. -/
def AddUserAllWrites (db : DB) (u : User) (i : Nat) (db2 : DB) : Prop :=
  db2.usersSeq = i ∧
  db2.users = mput db.users (idToBytes i) { u with ID := i } ∧
  db2.userEvents = db.userEvents ++ [idToBytes i] ∧
  db2.emailToUserID = mput db.emailToUserID u.Email (idToBytes i) ∧
  db2.phoneNoToUserID =
    (if u.PhoneNo = [] then db.phoneNoToUserID
     else mput db.phoneNoToUserID u.PhoneNo (idToBytes i)) ∧
  db2.hasUsers = db.hasUsers ∧ db2.hasUserEvents = db.hasUserEvents ∧
  db2.hasEmailIdx = db.hasEmailIdx ∧ db2.hasPhoneIdx = db.hasPhoneIdx

/-- C3: on a store satisfying EventState, AddUser of a valid candidate is
atomic: either it returns an error and the state is exactly the pre-state
(the transaction rolled back, nothing visible), or it returns an id and
every write of the unit of work is visible together. EventState covers every
committed execution of fewer than 2^64 calls — eventRun shows it is
preserved by every AddUser call, with duplicate emails and failing calls
included — and it rules out the one code path that could commit a partial
state, namely the swallowed CreateBucket error, because the next sequence id
never names an existing event sub-bucket. -/
theorem claim_C3_adduser_atomic (db : DB) (u : User)
    (hes : EventState db) (hv : u.IsValid = true) :
    (∃ e, db.AddUser u = (db, .error e)) ∨
    (∃ i, (db.AddUser u).2 = .ok i ∧ AddUserAllWrites db u i (db.AddUser u).1) := by
  have hee : u.Email ≠ [] := by
    intro hc
    rw [User.IsValid, hc] at hv
    exact absurd hv (by decide)
  by_cases hel : u.Email.length ≤ 32768
  · by_cases hph : u.PhoneNo = []
    · right
      have heq := addUser_good_eq db u hes.hu hes.hev hes.hm hes.hp hv hee hel
        (by simp [hph]) (eventState_event_fresh db hes)
      refine ⟨(db.usersSeq + 1) % 18446744073709551616, ?_, ?_⟩
      · rw [heq]
      · rw [heq]
        exact ⟨rfl, rfl, rfl, rfl, rfl, rfl, rfl, rfl, rfl⟩
    · by_cases hpl : u.PhoneNo.length ≤ 32768
      · right
        have heq := addUser_good_eq db u hes.hu hes.hev hes.hm hes.hp hv hee hel
          hpl (eventState_event_fresh db hes)
        refine ⟨(db.usersSeq + 1) % 18446744073709551616, ?_, ?_⟩
        · rw [heq]
        · rw [heq]
          exact ⟨rfl, rfl, rfl, rfl, rfl, rfl, rfl, rfl, rfl⟩
      · left
        have hppe : putErr u.PhoneNo = some .keyTooLarge := by
          rw [putErr, if_neg (by simpa using hph), if_pos (by omega)]
        have hpe : putErr u.Email = none := by
          rw [putErr, if_neg (by simpa using hee), if_neg (by omega)]
        exact ⟨.keyTooLarge,
          addUser_phone_err db u .keyTooLarge hv hes.hu hes.hm hes.hp hpe hph hppe⟩
  · left
    have hpe : putErr u.Email = some .keyTooLarge := by
      rw [putErr, if_neg (by simpa using hee), if_pos (by omega)]
    exact ⟨.keyTooLarge, addUser_email_err db u .keyTooLarge hv hes.hu hes.hm hpe⟩

/-- Witness for C3: userA added to the initialised empty store commits all
writes. -/
theorem claim_C3_adduser_atomic_witness :
    EventState initDB ∧ userA.IsValid = true ∧
    ((∃ e, initDB.AddUser userA = (initDB, .error e)) ∨
     (∃ i, (initDB.AddUser userA).2 = .ok i ∧
        AddUserAllWrites initDB userA i (initDB.AddUser userA).1)) :=
  ⟨eventState_initDB, by decide,
   claim_C3_adduser_atomic initDB userA eventState_initDB (by decide)⟩

/-- C4 amended: after any sequence of AddUser calls from a fresh initialised
store whose candidates are valid, fit the key-size bound, and carry pairwise
distinct emails and pairwise distinct non-empty phones, every primary record
with email E and id I has the email index mapping E to the encoding of I,
the phone index mapping its phone to the encoding of I when non-empty, and
the indexes hold exactly one entry per user with a non-empty field: the
email index has one entry per record and the phone index one entry per
record with a non-empty phone. With a repeated email the code instead
overwrites the shared index entry with the most recent id, which the
counterexample exhibits; the distinctness hypothesis is what the
counterexample forces. -/
theorem claim_C4_amended_index_agreement (us : List User)
    (hv : ∀ u ∈ us, u.IsValid = true ∧ u.Email.length ≤ 32768 ∧
      u.PhoneNo.length ≤ 32768)
    (hpw : us.Pairwise DistinctUsers)
    (hlen : us.length < 18446744073709551616) :
    (∀ kv ∈ (addAll initDB us).users,
      mget (addAll initDB us).emailToUserID kv.2.Email
        = some (idToBytes kv.2.ID) ∧
      (kv.2.PhoneNo ≠ [] →
        mget (addAll initDB us).phoneNoToUserID kv.2.PhoneNo
          = some (idToBytes kv.2.ID))) ∧
    (addAll initDB us).emailToUserID.length = (addAll initDB us).users.length ∧
    (addAll initDB us).phoneNoToUserID.length
      = phoneCount (addAll initDB us).users := by
  have hg := goodRun us initDB goodState_initDB
    (by simpa [initDB, uninitDB, DB.Init] using hlen)
    hv (by simp [initDB, uninitDB, DB.Init]) hpw
  refine ⟨?_, hg.ecount, hg.pcount⟩
  intro kv hkv
  obtain ⟨i, _, _, h3, h4⟩ := hg.userKeys kv hkv
  constructor
  · rw [h4, ← h3]
    exact hg.agreeE kv hkv
  · intro hph
    rw [h4, ← h3]
    exact hg.agreeP kv hkv hph

/-- Witness for C4 amended: userA and userB, with distinct emails, added to
the initialised empty store. -/
theorem claim_C4_amended_index_agreement_witness :
    ((∀ u ∈ [userA, userB], u.IsValid = true ∧ u.Email.length ≤ 32768 ∧
        u.PhoneNo.length ≤ 32768) ∧
     [userA, userB].Pairwise DistinctUsers ∧
     ([userA, userB] : List User).length < 18446744073709551616) ∧
    ((∀ kv ∈ (addAll initDB [userA, userB]).users,
        mget (addAll initDB [userA, userB]).emailToUserID kv.2.Email
          = some (idToBytes kv.2.ID) ∧
        (kv.2.PhoneNo ≠ [] →
          mget (addAll initDB [userA, userB]).phoneNoToUserID kv.2.PhoneNo
            = some (idToBytes kv.2.ID))) ∧
     (addAll initDB [userA, userB]).emailToUserID.length
        = (addAll initDB [userA, userB]).users.length ∧
     (addAll initDB [userA, userB]).phoneNoToUserID.length
        = phoneCount (addAll initDB [userA, userB]).users) :=
  ⟨⟨by decide, by decide, by decide⟩,
   claim_C4_amended_index_agreement [userA, userB] (by decide) (by decide)
     (by decide)⟩

/-- C4 counterexample: adding userA and then userDupA, which carries the
same email a@b.com, leaves the primary record of id 1 carrying that email
while the email index maps it to the encoding of id 2, so the agreement part
of the claim as stated fails on a duplicate-email sequence. -/
theorem claim_C4_counterexample :
    ¬ (∀ kv ∈ (addAll initDB [userA, userDupA]).users,
        mget (addAll initDB [userA, userDupA]).emailToUserID kv.2.Email
          = some (idToBytes kv.2.ID)) := by decide

end GoCollect
